import Mathlib

/-!
Verification of the Goldwasser-Micali cryptosystem and the 16-bit secure
comparison protocol of this repository.

The embedding translates `goldwasser_micali.py` and `secure_comparison_16bit.py`
into Lean definitions.  Python arbitrary-precision integers become `ℕ`/`ℤ`
(Python `%` on a positive modulus agrees with `Int.emod`); the random values
drawn inside a function (`random.randint`, `random.getrandbits`) become explicit
parameters, so theorems quantify over every possible draw; `raise` becomes
`Option`/an unreachable default, as noted at each definition.  Unbounded
`while` loops that provably terminate are given explicit fuel that the
correctness lemmas show is sufficient.
-/

/-- Embeds `GoldwasserMicali.legendre_symbol(a, p)` (goldwasser_micali.py,
lines 88-102): `0` if `p` divides `a`, otherwise `pow(a, (p-1)//2, p)` mapped
to `-1` when that power equals `p - 1`. -/
def legendre_symbol (a : ℤ) (p : ℕ) : ℤ :=
  if a % (p : ℤ) = 0 then 0
  else
    let result := a ^ ((p - 1) / 2) % (p : ℤ)
    if result = (p : ℤ) - 1 then -1 else result

/-- Embeds the inner `while a % 2 == 0` loop of
`GoldwasserMicali.jacobi_symbol` (goldwasser_micali.py, lines 124-128):
repeatedly halve `a`, flipping the accumulated `result` whenever
`n % 8 ∈ {3, 5}`.  The loop is only ever entered with `a ≠ 0` (outer loop
guard), which the conjunct `a ≠ 0` records; it also makes the recursion
well-founded. -/
def removeTwos (n a : ℕ) (result : ℤ) : ℕ × ℤ :=
  if h : a % 2 = 0 ∧ a ≠ 0 then
    removeTwos n (a / 2) (if n % 8 = 3 ∨ n % 8 = 5 then -result else result)
  else (a, result)
termination_by a
decreasing_by exact Nat.div_lt_self (Nat.pos_of_ne_zero h.2) one_lt_two

/-- Embeds the outer `while a != 0` loop of `GoldwasserMicali.jacobi_symbol`
(goldwasser_micali.py, lines 122-139): strip factors of two from `a`, swap
`a` and `n` applying quadratic reciprocity's sign flip when both are
`≡ 3 mod 4`, reduce, and repeat; on exit return `result` if the final modulus
is `1`, else `0`.  The Python loop terminates because the modulus strictly
decreases; `fuel` (instantiated with the initial modulus, an upper bound on
the iteration count) makes this explicit, and the fuel-exhaustion branch is
unreachable under that instantiation. -/
def jacobiLoop : ℕ → ℕ → ℕ → ℤ → ℤ
  | 0, _, n, result => if n = 1 then result else 0
  | fuel + 1, a, n, result =>
    if a = 0 then (if n = 1 then result else 0)
    else
      let p := removeTwos n a result
      let result2 := if n % 4 = 3 ∧ p.1 % 4 = 3 then -p.2 else p.2
      jacobiLoop fuel (n % p.1) p.1 result2

/-- Embeds `GoldwasserMicali.jacobi_symbol(a, n)` (goldwasser_micali.py,
lines 104-139).  The guard `n <= 0 or n % 2 == 0` raises `ValueError`,
modelled by `none`; otherwise `a` is first reduced mod `n` and the iterative
loop runs with accumulator `1`. -/
def jacobi_symbol (a n : ℤ) : Option ℤ :=
  if n ≤ 0 ∨ n % 2 = 0 then none
  else some (jacobiLoop n.toNat (a % n).toNat n.toNat 1)

/-- Embeds the decomposition `n - 1 = d * 2^s` at the start of
`GoldwasserMicali.is_prime` (goldwasser_micali.py, lines 43-47): the
`while d % 2 == 0` loop, with fuel (the initial `d` bounds the halvings). -/
def split2 : ℕ → ℕ → ℕ × ℕ
  | 0, d => (d, 0)
  | fuel + 1, d =>
    if d % 2 = 0 then
      let p := split2 fuel (d / 2)
      (p.1, p.2 + 1)
    else (d, 0)

/-- Embeds the inner `for _ in range(s - 1)` squaring loop of one
Miller-Rabin round (goldwasser_micali.py, lines 55-60): square `x` mod `n`
up to `k` times, succeeding (Python `break`) as soon as `x = n - 1`; if the
loop completes without breaking the round fails (`for`-`else`). -/
def mr_squareLoop : ℕ → ℕ → ℕ → Bool
  | 0, _, _ => false
  | k + 1, x, n =>
    let x2 := x ^ 2 % n
    if x2 = n - 1 then true else mr_squareLoop k x2 n

/-- Embeds one Miller-Rabin round of `GoldwasserMicali.is_prime` with witness
`a` (goldwasser_micali.py, lines 50-60): `x = pow(a, d, n)`; the round passes
immediately if `x ∈ {1, n-1}`, else the squaring loop decides. -/
def mr_round (n d s a : ℕ) : Bool :=
  let x := a ^ d % n
  if x = 1 ∨ x = n - 1 then true
  else mr_squareLoop (s - 1) x n

/-- Embeds `GoldwasserMicali.is_prime(n, k)` (goldwasser_micali.py, lines
24-61), Miller-Rabin.  The `k` random witnesses `random.randint(2, n - 2)`
drawn inside the Python function are passed explicitly as `witnesses`. -/
def is_prime (n : ℕ) (witnesses : List ℕ) : Bool :=
  if n ≤ 1 then false
  else if n ≤ 3 then true
  else if n % 2 = 0 then false
  else
    let p := split2 (n - 1) (n - 1)
    witnesses.all (fun a => mr_round n p.1 p.2 a)

/-- Fueled halving count, the helper of `bit_length`. -/
def bitLenAux : ℕ → ℕ → ℕ
  | 0, _ => 0
  | fuel + 1, x => if x = 0 then 0 else bitLenAux fuel (x / 2) + 1

/-- Embeds Python's `int.bit_length()`: the number of bits needed to represent
`m` (`0` for `m = 0`), computed by repeated halving with fuel `m` (always
sufficient since the bit length of `m` is at most `m`). -/
def bit_length (m : ℕ) : ℕ := bitLenAux m m

/-- Embeds one iteration of the `while True` loop of
`GoldwasserMicali.generate_large_prime_3mod4` (goldwasser_micali.py, lines
73-86), given the value `num0` drawn by `random.getrandbits(bit_length)` and
the Miller-Rabin witnesses: force the number odd with `|= 1`; if it is not
`≡ 3 mod 4` add the minimal offset and reject (`continue`, here `none`) when
the adjusted value's bit length exceeds `bl`; finally test primality,
returning the candidate on success and `none` (another loop iteration) on
failure. -/
def prime_candidate (bl num0 : ℕ) (witnesses : List ℕ) : Option ℕ :=
  let num1 := num0 ||| 1
  if num1 % 4 ≠ 3 then
    let num2 := num1 + (3 - num1 % 4)
    if bit_length num2 > bl then none
    else if is_prime num2 witnesses then some num2 else none
  else if is_prime num1 witnesses then some num1 else none

/-- Embeds `GoldwasserMicali.generate_large_prime_3mod4(bit_length)`
(goldwasser_micali.py, lines 63-86): the `while True` loop over successive
random draws `samples 0, samples 1, ...` (with Miller-Rabin witness lists
`wss 0, wss 1, ...`), returning the first accepted candidate.  `fuel` bounds
the number of iterations examined; the Python loop has no bound, so theorems
about a successful return quantify over all fuels/streams producing one. -/
def generate_large_prime_3mod4 (bl : ℕ) (samples : ℕ → ℕ) (wss : ℕ → List ℕ) : ℕ → Option ℕ
  | 0 => none
  | fuel + 1 =>
    match prime_candidate bl (samples 0) (wss 0) with
    | some v => some v
    | none => generate_large_prime_3mod4 bl (fun i => samples (i + 1)) (fun i => wss (i + 1)) fuel

/-- Embeds the search `z_p = 2; while legendre_symbol(z_p, p) != -1: z_p += 1`
of `GoldwasserMicali.generate_keys` (goldwasser_micali.py, lines 174-182):
the least non-residue from `zc` upward, with fuel.  `find_nonresidue` starts
at `2` with fuel `p`, which suffices because every odd prime has a quadratic
non-residue in `[2, p)`. -/
def find_nonresidue_aux (p : ℕ) : ℕ → ℕ → ℕ
  | 0, zc => zc
  | fuel + 1, zc =>
    if legendre_symbol (zc : ℤ) p = -1 then zc else find_nonresidue_aux p fuel (zc + 1)

/-- The non-residue search of `generate_keys` started at `2` (see
`find_nonresidue_aux`). -/
def find_nonresidue (p : ℕ) : ℕ := find_nonresidue_aux p p 2

/-- Embeds Python's `pow(p, -1, q)` in `GoldwasserMicali.generate_keys`
(goldwasser_micali.py, line 190): the unique modular inverse of `a` in
`[0, m)` when `gcd(a, m) = 1` (Python raises `ValueError` otherwise; at the
only call site the arguments are distinct primes, so the inverse exists and
the `getD 0` default is unreachable).  Computed here as the first `x < m`
with `a * x % m = 1`, which is exactly that inverse. -/
def mod_inverse (a m : ℕ) : ℕ :=
  ((List.range m).find? (fun x => a * x % m == 1)).getD 0

/-- Embeds the deterministic part of `GoldwasserMicali.generate_keys`
(goldwasser_micali.py, lines 141-202), given the two primes `p`, `q` already
produced by `generate_large_prime_3mod4` (with the `while p == q` resampling
making them distinct): `n = p*q`; the least non-residues `z_p` mod `p` and
`z_q` mod `q`; the CRT combination `z = z_p + (((z_q - z_p) % q) * p^(-1) % q) * p`;
returns `((n, z), (p, q))`. -/
def generate_keys_from (p q : ℕ) : (ℕ × ℕ) × (ℕ × ℕ) :=
  let n := p * q
  let z_p := find_nonresidue p
  let z_q := find_nonresidue q
  let p_inv_q := mod_inverse p q
  let k := (Int.toNat (((z_q : ℤ) - (z_p : ℤ)) % (q : ℤ))) * p_inv_q % q
  let z := z_p + k * p
  ((n, z), (p, q))

/-- Embeds `GoldwasserMicali.encrypt_bit(bit, (n, z))` (goldwasser_micali.py,
lines 204-236) with the random blinding factor `r` (drawn by the Python code
from `[1, n-1]`, retried until `gcd(r, n) = 1`) passed explicitly:
`r^2 mod n` for bit `0`, `(r^2 mod n) * z mod n` for bit `1`.  A bit outside
`{0, 1}` raises `ValueError` in Python; that branch is modelled by the junk
value `0` and is excluded by every theorem's hypotheses. -/
def encrypt_bit (bit r n z : ℕ) : ℕ :=
  if bit = 0 then r ^ 2 % n
  else if bit = 1 then r ^ 2 % n * z % n
  else 0

/-- Embeds `GoldwasserMicali.decrypt_bit(c, (p, q))` (goldwasser_micali.py,
lines 274-300): `0` iff both Legendre symbols of `c` at `p` and `q` are `+1`,
else `1`. -/
def decrypt_bit (c p q : ℕ) : ℕ :=
  let ls_p := legendre_symbol ((c % p : ℕ) : ℤ) p
  let ls_q := legendre_symbol ((c % q : ℕ) : ℤ) q
  if ls_p = 1 ∧ ls_q = 1 then 0 else 1

/-- Embeds `GoldwasserMicali.decrypt(ciphertext, (p, q), output_type='int')`
(goldwasser_micali.py, lines 302-325): decrypt each ciphertext to a bit,
concatenate most-significant-first, and read the binary string as an integer;
the empty string returns `0` (source line 323-324).  The `'bytes'`/`'str'`
output types are encoding conversions not touched by any claim. -/
def decrypt (ciphertext : List ℕ) (p q : ℕ) : ℕ :=
  let bits := ciphertext.map (fun c => decrypt_bit c p q)
  if bits.isEmpty then 0
  else bits.foldl (fun acc b => acc * 2 + b) 0

/-- Embeds `SecureComparisonProtocol_16bit._c_mul(c1, c2, n)`
(secure_comparison_16bit.py, lines 43-49): ciphertext multiplication,
homomorphic XOR. -/
def c_mul (c1 c2 n : ℕ) : ℕ := c1 * c2 % n

/-- Embeds `SecureComparisonProtocol_16bit._encrypt_constant(gm, constant,
public_key)` (secure_comparison_16bit.py, lines 51-67), a verbatim duplicate
of `encrypt_bit` with the blinding factor `r` explicit; the `ValueError` for
a constant outside `{0, 1}` is the junk value `0`, unreachable in the
protocol since every encrypted constant is a bit. -/
def encrypt_constant (constant r n z : ℕ) : ℕ :=
  if constant = 0 then r ^ 2 % n
  else if constant = 1 then r ^ 2 % n * z % n
  else 0

/-- Embeds `SecureComparisonProtocol_16bit._int_to_16bits(num)`
(secure_comparison_16bit.py, lines 17-29) for an in-range `num`: the 16-bit
binary string of `num` reversed into a least-significant-bit-first list,
i.e. element `i` is bit `i` of `num`.  Its own range `ValueError` cannot
trigger at the call sites because `run_protocol` validates first. -/
def to16bits (num : ℕ) : List ℕ := (List.range 16).map (fun i => num / 2 ^ i % 2)

/-- A payload value of a protocol message: a ciphertext integer or the public
key pair `(n, z)` (sent in message 1). -/
inductive PVal where
  | nat : ℕ → PVal
  | key : ℕ → ℕ → PVal

/-- Embeds the `(msg_index, label, payload-dict)` tuples appended to
`A_messages` / `B_messages` in `run_protocol`. -/
structure Msg where
  idx : ℕ
  label : String
  payload : List (String × PVal)

/-- The random values drawn during one run of
`SecureComparisonProtocol_16bit.run_protocol`, passed explicitly: one
blinding factor per encryption call site (`blindB0` for `E(b0)`, `blindT0`
for the `E(0)` possibly built for `t0`, `blindMask i` for `E(r_i)`,
`blindU0 i`/`blindU1 i`/`blindB i` for round `i`'s `E(u0)`/`E(u1)`/`E(b_i)`,
`blindOne i` for the `E(1)` possibly built in round `i`), and the mask bits
`maskBit i` from `random.getrandbits(1)`. -/
structure ProtocolRand where
  blindB0 : ℕ
  blindT0 : ℕ
  maskBit : ℕ → ℕ
  blindMask : ℕ → ℕ
  blindU0 : ℕ → ℕ
  blindU1 : ℕ → ℕ
  blindB : ℕ → ℕ
  blindOne : ℕ → ℕ

/-- The mutable state of `run_protocol` threaded through the round loop:
`r_prev`, `current_M2` (here `M`), `msg_index` (here `idx`), the two message
logs, and `final_cipher` (here `final`, `0` until round 15 sets it). -/
structure PState where
  r_prev : ℕ
  M : ℕ
  idx : ℕ
  A : List Msg
  B : List Msg
  final : ℕ

/-- Embeds A's reconstruction of `E(t_i)` in round `i` of `run_protocol`
(secure_comparison_16bit.py, lines 189-215): the four-way case analysis on
A's own bit `abit` and the previous mask bit `rprev`. -/
def round_Eti (n z : ℕ) (rnd : ProtocolRand) (i abit rprev E_u0 E_u1 E_bi : ℕ) : ℕ :=
  if abit = 0 then
    if rprev = 0 then E_u0
    else
      let E_one := encrypt_constant 1 (rnd.blindOne i) n z
      let E_one_xor_bi := c_mul E_one E_bi n
      c_mul E_u0 E_one_xor_bi n
  else
    if rprev = 0 then E_u1
    else c_mul E_u1 E_bi n

/-- Embeds the body of the `for i in range(1, 16)` loop of `run_protocol`
(secure_comparison_16bit.py, lines 156-243): B decrypts `s`, computes and
encrypts `u0 = s | b_i`, `u1 = s & b_i` and `b_i`, logs its message; A
reconstructs `E(t_i)` (see `round_Eti`), then either masks with a fresh `r_i`
and sends (rounds `1..14`) or sends `E(t_15)` unmasked and records it as the
final ciphertext (round 15). -/
def round_step (p q n z : ℕ) (a_bits b_bits : List ℕ) (rnd : ProtocolRand)
    (i : ℕ) (st : PState) : PState :=
  let s := decrypt_bit st.M p q
  let bi := b_bits.getD i 0
  let u0 := s ||| bi
  let u1 := s &&& bi
  let E_u0 := encrypt_constant u0 (rnd.blindU0 i) n z
  let E_u1 := encrypt_constant u1 (rnd.blindU1 i) n z
  let E_bi := encrypt_constant bi (rnd.blindB i) n z
  let idx1 := st.idx + 1
  let Bmsgs := st.B ++ [⟨idx1,
    "B -> A (round " ++ toString i ++ "): E(u0), E(u1), E(b" ++ toString i ++ ")",
    [("E_u0", PVal.nat E_u0), ("E_u1", PVal.nat E_u1), ("E_bi", PVal.nat E_bi)]⟩]
  let E_ti := round_Eti n z rnd i (a_bits.getD i 0) st.r_prev E_u0 E_u1 E_bi
  if i < 15 then
    let r_i := rnd.maskBit i
    let E_ri := encrypt_constant r_i (rnd.blindMask i) n z
    let M := c_mul E_ti E_ri n
    let idx2 := idx1 + 1
    { r_prev := r_i, M := M, idx := idx2,
      A := st.A ++ [⟨idx2,
        "A -> B (round " ++ toString i ++ "): M = E(t" ++ toString i ++ ") * E(r"
          ++ toString i ++ ") = E(t" ++ toString i ++ " ⊕ r" ++ toString i ++ ")",
        [("M", PVal.nat M)]⟩],
      B := Bmsgs, final := st.final }
  else
    let idx2 := idx1 + 1
    { r_prev := st.r_prev, M := st.M, idx := idx2,
      A := st.A ++ [⟨idx2, "A -> B (final): E(t15)", [("E_t15", PVal.nat E_ti)]⟩],
      B := Bmsgs, final := E_ti }

/-- The `for i in range(1, 16)` loop itself: `run_rounds p q n z a b rnd c i st`
performs rounds `i, i+1, ..., i+c-1`; the protocol calls it with `c = 15`,
`i = 1`. -/
def run_rounds (p q n z : ℕ) (a_bits b_bits : List ℕ) (rnd : ProtocolRand) :
    ℕ → ℕ → PState → PState
  | 0, _, st => st
  | c + 1, i, st =>
    run_rounds p q n z a_bits b_bits rnd c (i + 1)
      (round_step p q n z a_bits b_bits rnd i st)

/-- Embeds `SecureComparisonProtocol_16bit.run_protocol(a, b, key_size)`
(secure_comparison_16bit.py, lines 69-257).  Python's
`isinstance(a, int)` check is subsumed by the type `ℤ`; an out-of-range
operand raises `ValueError`, modelled by `none`, before any key generation or
message.  The two primes `p`, `q` produced inside `gm.generate_keys()` by the
random prime generator, and all other random draws (`rnd`), are explicit
parameters; `key_size` only feeds the prime generator and is therefore
subsumed by `p`, `q`.  On success returns `(t, A_messages, B_messages)`. -/
def run_protocol (a b : ℤ) (p q : ℕ) (rnd : ProtocolRand) :
    Option (ℕ × List Msg × List Msg) :=
  if a < 0 ∨ 2 ^ 16 ≤ a then none
  else if b < 0 ∨ 2 ^ 16 ≤ b then none
  else
    let a_bits := to16bits a.toNat
    let b_bits := to16bits b.toNat
    let K := generate_keys_from p q
    let n := K.1.1
    let z := K.1.2
    let E_b0 := encrypt_constant (b_bits.getD 0 0) rnd.blindB0 n z
    let Bmsgs : List Msg :=
      [⟨1, "B -> A : 公钥pk, E(b0)", [("pk", PVal.key n z), ("E_b0", PVal.nat E_b0)]⟩]
    let E_t0 := if a_bits.getD 0 0 = 1 then encrypt_constant 0 rnd.blindT0 n z else E_b0
    let r0 := rnd.maskBit 0
    let E_r0 := encrypt_constant r0 (rnd.blindMask 0) n z
    let M2 := c_mul E_t0 E_r0 n
    let Amsgs : List Msg :=
      [⟨2, "A -> B : M2 = E(t0) * E(r0) = E(t0 ⊕ r0)", [("M2", PVal.nat M2)]⟩]
    let st0 : PState :=
      { r_prev := r0, M := M2, idx := 2, A := Amsgs, B := Bmsgs, final := 0 }
    let stF := run_rounds p q n z a_bits b_bits rnd 15 1 st0
    let t := decrypt_bit stF.final p q
    some (t, stF.A, stF.B)

/-- A concrete randomness assignment (all blinding factors `1`, all mask bits
`0`), used to instantiate theorems at concrete inputs. -/
def constRand : ProtocolRand :=
  { blindB0 := 1, blindT0 := 1, maskBit := fun _ => 0, blindMask := fun _ => 1,
    blindU0 := fun _ => 1, blindU1 := fun _ => 1, blindB := fun _ => 1,
    blindOne := fun _ => 1 }

/-- Bit `i` of `x`. -/
def bitOf (x i : ℕ) : ℕ := x / 2 ^ i % 2

/-- The plaintext value of the chained comparison indicator after round `i`,
as determined by the protocol's bit logic: `t_0 = 0` if `a_0 = 1` else `b_0`,
and `t_i = t_{i-1} AND b_i` if `a_i = 1`, else `t_{i-1} OR b_i`. -/
def tSpec (aN bN : ℕ) : ℕ → ℕ
  | 0 => if bitOf aN 0 = 1 then 0 else bitOf bN 0
  | i + 1 =>
    if bitOf aN (i + 1) = 1 then tSpec aN bN i &&& bitOf bN (i + 1)
    else tSpec aN bN i ||| bitOf bN (i + 1)

/-- Validity of a GM key pair `((p*q, z), (p, q))` as guaranteed by
`generate_keys`:  `p`, `q` are distinct primes `≡ 3 mod 4` and `z` is a
quadratic non-residue modulo each (the conditions asserted at
goldwasser_micali.py, lines 195-197). -/
structure ValidKey (p q z : ℕ) : Prop where
  pp : Nat.Prime p
  qp : Nat.Prime q
  p4 : p % 4 = 3
  q4 : q % 4 = 3
  pq : p ≠ q
  zp : legendre_symbol ((z % p : ℕ) : ℤ) p = -1
  zq : legendre_symbol ((z % q : ℕ) : ℤ) q = -1

/-- Validity of the random draws of one protocol run under modulus `n`: each
blinding factor lies in `[1, n-1]` and is coprime to `n` (the `random.randint`
retry loop guarantees exactly this), and each mask bit is a bit. -/
structure ValidRand (n : ℕ) (rnd : ProtocolRand) : Prop where
  b0 : 1 ≤ rnd.blindB0 ∧ rnd.blindB0 ≤ n - 1 ∧ Nat.gcd rnd.blindB0 n = 1
  t0 : 1 ≤ rnd.blindT0 ∧ rnd.blindT0 ≤ n - 1 ∧ Nat.gcd rnd.blindT0 n = 1
  mask : ∀ i, rnd.maskBit i ≤ 1
  bm : ∀ i, 1 ≤ rnd.blindMask i ∧ rnd.blindMask i ≤ n - 1 ∧ Nat.gcd (rnd.blindMask i) n = 1
  bu0 : ∀ i, 1 ≤ rnd.blindU0 i ∧ rnd.blindU0 i ≤ n - 1 ∧ Nat.gcd (rnd.blindU0 i) n = 1
  bu1 : ∀ i, 1 ≤ rnd.blindU1 i ∧ rnd.blindU1 i ≤ n - 1 ∧ Nat.gcd (rnd.blindU1 i) n = 1
  bb : ∀ i, 1 ≤ rnd.blindB i ∧ rnd.blindB i ≤ n - 1 ∧ Nat.gcd (rnd.blindB i) n = 1
  bone : ∀ i, 1 ≤ rnd.blindOne i ∧ rnd.blindOne i ≤ n - 1 ∧ Nat.gcd (rnd.blindOne i) n = 1

/-- A ciphertext `c` is a GM encryption of bit `t` under `(p, q)`: its
Legendre symbol at both primes is `(-1)^t`.  This is the exact property
`decrypt_bit` tests. -/
def EncBit (p q c t : ℕ) : Prop :=
  legendre_symbol ((c % p : ℕ) : ℤ) p = (-1) ^ t ∧
    legendre_symbol ((c % q : ℕ) : ℤ) q = (-1) ^ t

/-- The loop invariant after round `j` (`0 ≤ j ≤ 14`): `r_prev` is mask bit
`j`, and the outstanding masked ciphertext encrypts `t_j XOR r_j`. -/
def ProtInv (p q : ℕ) (aN bN : ℕ) (rnd : ProtocolRand) (j : ℕ) (st : PState) : Prop :=
  st.r_prev = rnd.maskBit j ∧ EncBit p q st.M (tSpec aN bN j ^^^ rnd.maskBit j)

/-! ### Correctness of the embedded Legendre symbol -/

lemma odd_prime_two_lt {p : ℕ} (hp : p.Prime) (h2 : p % 2 = 1) : 2 < p := by
  have := hp.two_le
  omega

/-- The embedded `legendre_symbol` computes Mathlib's `legendreSym` at every
odd prime. -/
lemma legendre_eq (p : ℕ) (hp : p.Prime) (h2 : p % 2 = 1) (a : ℤ) :
    legendre_symbol a p = @legendreSym p ⟨hp⟩ a := by
  haveI : Fact p.Prime := ⟨hp⟩
  have hp3 : 2 < p := odd_prime_two_lt hp h2
  have hexp : (p - 1) / 2 = p / 2 := by omega
  unfold legendre_symbol
  by_cases h0 : a % (p : ℤ) = 0
  · rw [if_pos h0, eq_comm, legendreSym.eq_zero_iff,
      ZMod.intCast_zmod_eq_zero_iff_dvd]
    exact Int.dvd_of_emod_eq_zero h0
  · rw [if_neg h0]
    have ha : (a : ZMod p) ≠ 0 := by
      rw [Ne, ZMod.intCast_zmod_eq_zero_iff_dvd]
      intro hdvd
      exact h0 (Int.emod_eq_zero_of_dvd hdvd)
    have hkey : a ^ ((p - 1) / 2) % (p : ℤ) = (legendreSym p a : ℤ) % (p : ℤ) := by
      have hz : ((a ^ (p / 2) : ℤ) : ZMod p) = ((legendreSym p a : ℤ) : ZMod p) := by
        push_cast
        rw [legendreSym.eq_pow]
      calc a ^ ((p - 1) / 2) % (p : ℤ)
          = (((a ^ (p / 2) : ℤ) : ZMod p).val : ℤ) := by rw [hexp, ZMod.val_intCast]
        _ = (((legendreSym p a : ℤ) : ZMod p).val : ℤ) := by rw [hz]
        _ = (legendreSym p a : ℤ) % (p : ℤ) := by rw [ZMod.val_intCast]
    rcases legendreSym.eq_one_or_neg_one p ha with h1 | h1
    · rw [h1] at hkey
      have e1 : (1 : ℤ) % (p : ℤ) = 1 :=
        Int.emod_eq_of_lt (by norm_num) (by exact_mod_cast Nat.lt_of_succ_lt hp3)
      rw [hkey, e1, if_neg (by omega), h1]
    · rw [h1] at hkey
      have e1 : (-1 : ℤ) % (p : ℤ) = (p : ℤ) - 1 := by
        have step : (-1 : ℤ) = ((p : ℤ) - 1) + (p : ℤ) * (-1) := by ring
        rw [step, Int.add_mul_emod_self_left]
        exact Int.emod_eq_of_lt (by omega) (by omega)
      rw [hkey, e1, if_pos rfl, h1]

/-- The form of `legendre_eq` matching `decrypt_bit`'s call pattern: the
embedded symbol of `c % p` is the mathematical symbol of `c`. -/
lemma lsym_mod (p : ℕ) (hp : p.Prime) (h2 : p % 2 = 1) (c : ℕ) :
    legendre_symbol ((c % p : ℕ) : ℤ) p = @legendreSym p ⟨hp⟩ (c : ℤ) := by
  haveI : Fact p.Prime := ⟨hp⟩
  rw [legendre_eq p hp h2, legendreSym.mod p (c : ℤ), Int.natCast_mod]

/-- `legendreSym` of a natural number only depends on its residue. -/
lemma legN_congr (p : ℕ) (hp : p.Prime) {c c' : ℕ} (h : c % p = c' % p) :
    @legendreSym p ⟨hp⟩ (c : ℤ) = @legendreSym p ⟨hp⟩ (c' : ℤ) := by
  haveI : Fact p.Prime := ⟨hp⟩
  rw [legendreSym.mod p (c : ℤ), legendreSym.mod p (c' : ℤ), ← Int.natCast_mod,
    ← Int.natCast_mod, h]

/-! ### Correctness of the embedded Jacobi symbol -/

/-- The factor-of-two stripping loop preserves the product of the accumulator
with the Jacobi symbol, returns an odd nonzero value, and does not increase
its argument. -/
lemma removeTwos_spec (n : ℕ) (hn2 : n % 2 = 1) :
    ∀ a : ℕ, a ≠ 0 → ∀ res : ℤ,
      (removeTwos n a res).1 % 2 = 1 ∧ (removeTwos n a res).1 ≠ 0 ∧
        (removeTwos n a res).1 ≤ a ∧
        (removeTwos n a res).2 * jacobiSym ((removeTwos n a res).1 : ℤ) n
          = res * jacobiSym (a : ℤ) n := by
  intro a
  induction a using Nat.strong_induction_on with
  | _ a IH =>
    intro ha0 res
    rw [removeTwos]
    by_cases h : a % 2 = 0 ∧ a ≠ 0
    · rw [dif_pos h]
      have hlt : a / 2 < a := Nat.div_lt_self (Nat.pos_of_ne_zero ha0) one_lt_two
      have hhalf : a / 2 ≠ 0 := by omega
      obtain ⟨h1, h2, h3, h4⟩ :=
        IH (a / 2) hlt hhalf (if n % 8 = 3 ∨ n % 8 = 5 then -res else res)
      refine ⟨h1, h2, le_trans h3 (le_of_lt hlt), ?_⟩
      rw [h4]
      have hcast : ((a : ℤ)) % 2 = 0 := by omega
      have he := @jacobiSym.even_odd (a : ℤ) n hcast hn2
      have hdiv : ((a / 2 : ℕ) : ℤ) = (a : ℤ) / 2 := by exact_mod_cast Int.ofNat_ediv a 2
      rw [hdiv]
      by_cases hc : n % 8 = 3 ∨ n % 8 = 5
      · rw [if_pos hc] at he ⊢
        rw [← he]
        ring
      · rw [if_neg hc] at he ⊢
        rw [← he]
    · rw [dif_neg h]
      have h2 : a % 2 = 1 := by omega
      exact ⟨h2, ha0, le_refl a, rfl⟩

/-- The main loop of `jacobi_symbol` computes the Jacobi symbol, given enough
fuel. -/
lemma jacobiLoop_spec :
    ∀ fuel a n : ℕ, ∀ res : ℤ, a < n → n % 2 = 1 → n ≤ fuel →
      jacobiLoop fuel a n res = res * jacobiSym (a : ℤ) n := by
  intro fuel
  induction fuel with
  | zero => intro a n res h1 h2 h3; omega
  | succ fuel IH =>
    intro a n res han hn2 hfuel
    rw [jacobiLoop]
    by_cases ha0 : a = 0
    · subst ha0
      by_cases hn1 : n = 1
      · subst hn1
        rw [if_pos rfl, if_pos rfl, jacobiSym.one_right, mul_one]
      · rw [if_pos rfl, if_neg hn1, Int.natCast_zero, jacobiSym.zero_left (by omega), mul_zero]
    · rw [if_neg ha0]
      obtain ⟨ho, hne, hle, hrel⟩ := removeTwos_spec n hn2 a ha0 res
      have hpos : 0 < (removeTwos n a res).1 := Nat.pos_of_ne_zero hne
      have hrec := IH (n % (removeTwos n a res).1) (removeTwos n a res).1
        (if n % 4 = 3 ∧ (removeTwos n a res).1 % 4 = 3
          then -(removeTwos n a res).2 else (removeTwos n a res).2)
        (Nat.mod_lt n hpos) ho (by omega)
      rw [hrec, ← hrel]
      have hqr := jacobiSym.quadratic_reciprocity_if ho hn2
      have hmod : jacobiSym ((n : ℤ)) (removeTwos n a res).1
          = jacobiSym ((n % (removeTwos n a res).1 : ℕ) : ℤ) (removeTwos n a res).1 := by
        rw [jacobiSym.mod_left, Int.natCast_mod]
      by_cases hc : n % 4 = 3 ∧ (removeTwos n a res).1 % 4 = 3
      · rw [if_pos hc] at *
        rw [if_pos ⟨hc.2, hc.1⟩] at hqr
        rw [← hqr, ← hmod]
        ring
      · rw [if_neg hc]
        rw [if_neg (fun hx => hc ⟨hx.2, hx.1⟩)] at hqr
        rw [← hqr, ← hmod]

/-- Correctness of `jacobi_symbol` on every positive odd modulus. -/
lemma jacobi_correct (a : ℤ) (n : ℕ) (hn : 0 < n) (h2 : n % 2 = 1) :
    jacobi_symbol a (n : ℤ) = some (jacobiSym a n) := by
  unfold jacobi_symbol
  rw [if_neg (by omega)]
  congr 1
  have hnn : ((n : ℤ)).toNat = n := Int.toNat_natCast n
  have hnz : (n : ℤ) ≠ 0 := by exact_mod_cast hn.ne'
  have h0 : 0 ≤ a % (n : ℤ) := Int.emod_nonneg a hnz
  have hlt : (a % (n : ℤ)).toNat < n := by
    have := Int.emod_lt_of_pos a (show (0 : ℤ) < (n : ℤ) by exact_mod_cast hn)
    omega
  rw [hnn, jacobiLoop_spec n (a % (n : ℤ)).toNat n 1 hlt h2 (le_refl n), one_mul]
  have : (((a % (n : ℤ)).toNat : ℕ) : ℤ) = a % (n : ℤ) := Int.toNat_of_nonneg h0
  rw [this, ← jacobiSym.mod_left]

/-! ### Soundness of GM encryption, ciphertext product, and decryption -/

lemma prime_not_dvd_of_gcd {p n r : ℕ} (hp : p.Prime) (hdvd : p ∣ n)
    (hr : Nat.gcd r n = 1) : ¬p ∣ r := by
  intro h
  have : p ∣ Nat.gcd r n := Nat.dvd_gcd h hdvd
  rw [hr] at this
  exact hp.one_lt.ne' (Nat.dvd_one.mp this)

lemma legN_mod_n (p n : ℕ) (hp : p.Prime) (hdvd : p ∣ n) (c : ℕ) :
    @legendreSym p ⟨hp⟩ ((c % n : ℕ) : ℤ) = @legendreSym p ⟨hp⟩ (c : ℤ) :=
  legN_congr p hp (Nat.mod_mod_of_dvd c hdvd)

lemma legN_sq (p r : ℕ) (hp : p.Prime) (hnd : ¬p ∣ r) :
    @legendreSym p ⟨hp⟩ ((r ^ 2 : ℕ) : ℤ) = 1 := by
  haveI : Fact p.Prime := ⟨hp⟩
  have hcast : ((r ^ 2 : ℕ) : ℤ) = ((r : ℕ) : ℤ) ^ 2 := by push_cast; ring
  rw [hcast]
  apply legendreSym.sq_one'
  rw [Ne, ZMod.intCast_zmod_eq_zero_iff_dvd]
  exact_mod_cast hnd

/-- The Legendre symbol (at one of the two primes) of a GM encryption of bit
`t` is `(-1)^t`. -/
lemma leg_encrypt (p n z : ℕ) (hp : p.Prime) (h2 : p % 2 = 1) (hdvd : p ∣ n)
    (hz : legendre_symbol ((z % p : ℕ) : ℤ) p = -1) (t r : ℕ) (ht : t ≤ 1)
    (hr : Nat.gcd r n = 1) :
    legendre_symbol ((encrypt_constant t r n z % p : ℕ) : ℤ) p = (-1) ^ t := by
  haveI : Fact p.Prime := ⟨hp⟩
  have hnd : ¬p ∣ r := prime_not_dvd_of_gcd hp hdvd hr
  have hzleg : @legendreSym p ⟨hp⟩ (z : ℤ) = -1 := by
    rw [← lsym_mod p hp h2 z]; exact hz
  interval_cases t
  · show legendre_symbol ((r ^ 2 % n % p : ℕ) : ℤ) p = (-1) ^ 0
    rw [lsym_mod p hp h2, legN_mod_n p n hp hdvd, legN_sq p r hp hnd, pow_zero]
  · show legendre_symbol ((r ^ 2 % n * z % n % p : ℕ) : ℤ) p = (-1) ^ 1
    rw [lsym_mod p hp h2, legN_mod_n p n hp hdvd]
    have hcast : ((r ^ 2 % n * z : ℕ) : ℤ) = ((r ^ 2 % n : ℕ) : ℤ) * ((z : ℕ) : ℤ) := by
      push_cast; ring
    rw [hcast, legendreSym.mul, legN_mod_n p n hp hdvd, legN_sq p r hp hnd,
      hzleg, pow_one, one_mul]

lemma odd_of_mod4 {p : ℕ} (h : p % 4 = 3) : p % 2 = 1 := by omega

lemma encrypt_constant_enc {p q z : ℕ} (hK : ValidKey p q z) {n : ℕ} (hn : n = p * q)
    {t r : ℕ} (ht : t ≤ 1) (hr : Nat.gcd r n = 1) :
    EncBit p q (encrypt_constant t r n z) t := by
  constructor
  · exact leg_encrypt p n z hK.pp (odd_of_mod4 hK.p4) (hn ▸ Dvd.intro q rfl) hK.zp t r ht hr
  · exact leg_encrypt q n z hK.qp (odd_of_mod4 hK.q4) (hn ▸ Dvd.intro_left p rfl) hK.zq t r ht hr

lemma neg_one_pow_xor (t1 t2 : ℕ) (h1 : t1 ≤ 1) (h2 : t2 ≤ 1) :
    ((-1 : ℤ)) ^ t1 * (-1) ^ t2 = (-1) ^ (t1 ^^^ t2) := by
  interval_cases t1 <;> interval_cases t2 <;> decide

/-- Multiplying two well-formed ciphertexts XORs the underlying bits. -/
lemma c_mul_enc {p q z : ℕ} (hK : ValidKey p q z) {n : ℕ} (hn : n = p * q)
    {c1 c2 t1 t2 : ℕ} (h1 : EncBit p q c1 t1) (h2 : EncBit p q c2 t2)
    (ht1 : t1 ≤ 1) (ht2 : t2 ≤ 1) :
    EncBit p q (c_mul c1 c2 n) (t1 ^^^ t2) := by
  have hgen : ∀ pr : ℕ, ∀ hpr : pr.Prime, pr % 2 = 1 → pr ∣ n →
      legendre_symbol ((c1 % pr : ℕ) : ℤ) pr = (-1) ^ t1 →
      legendre_symbol ((c2 % pr : ℕ) : ℤ) pr = (-1) ^ t2 →
      legendre_symbol ((c1 * c2 % n % pr : ℕ) : ℤ) pr = (-1) ^ (t1 ^^^ t2) := by
    intro pr hpr hodd hdvd e1 e2
    haveI : Fact pr.Prime := ⟨hpr⟩
    rw [lsym_mod pr hpr hodd] at e1 e2 ⊢
    rw [legN_mod_n pr n hpr hdvd]
    have hcast : ((c1 * c2 : ℕ) : ℤ) = ((c1 : ℕ) : ℤ) * ((c2 : ℕ) : ℤ) := by push_cast; ring
    rw [hcast, legendreSym.mul, e1, e2, neg_one_pow_xor t1 t2 ht1 ht2]
  exact ⟨hgen p hK.pp (odd_of_mod4 hK.p4) (hn ▸ Dvd.intro q rfl) h1.1 h2.1,
    hgen q hK.qp (odd_of_mod4 hK.q4) (hn ▸ Dvd.intro_left p rfl) h1.2 h2.2⟩

/-- Decrypting a well-formed ciphertext recovers its bit. -/
lemma decrypt_bit_enc {p q c t : ℕ} (h : EncBit p q c t) (ht : t ≤ 1) :
    decrypt_bit c p q = t := by
  obtain ⟨h1, h2⟩ := h
  interval_cases t
  · simp only [pow_zero] at h1 h2
    simp only [decrypt_bit]
    rw [if_pos ⟨h1, h2⟩]
  · simp only [pow_one] at h1 h2
    simp only [decrypt_bit]
    rw [if_neg]
    rintro ⟨x, -⟩
    rw [h1] at x
    norm_num at x

lemma decrypt_bit_le (c p q : ℕ) : decrypt_bit c p q ≤ 1 := by
  simp only [decrypt_bit]
  split <;> omega

/-! ### Key generation: non-residue search, modular inverse, CRT -/

lemma find_aux_spec (p : ℕ) :
    ∀ fuel zc : ℕ, (∃ j, j < fuel ∧ legendre_symbol ((zc + j : ℕ) : ℤ) p = -1) →
      legendre_symbol ((find_nonresidue_aux p fuel zc : ℕ) : ℤ) p = -1 := by
  intro fuel
  induction fuel with
  | zero =>
    rintro zc ⟨j, hj, -⟩
    omega
  | succ fuel IH =>
    rintro zc ⟨j, hj, hjleg⟩
    rw [find_nonresidue_aux]
    by_cases h : legendre_symbol ((zc : ℕ) : ℤ) p = -1
    · rw [if_pos h]
      exact h
    · rw [if_neg h]
      apply IH
      have hj0 : j ≠ 0 := by
        rintro rfl
        rw [Nat.add_zero] at hjleg
        exact h hjleg
      refine ⟨j - 1, by omega, ?_⟩
      have e : zc + 1 + (j - 1) = zc + j := by omega
      rw [e]
      exact hjleg

/-- Every odd prime has a non-residue in `[2, p)`, so the fueled search is
complete. -/
lemma exists_nonresidue (p : ℕ) (hp : p.Prime) (h2 : p % 2 = 1) :
    ∃ j, j < p ∧ legendre_symbol ((2 + j : ℕ) : ℤ) p = -1 := by
  haveI : Fact p.Prime := ⟨hp⟩
  have hp3 : 2 < p := odd_prime_two_lt hp h2
  have hchar : ringChar (ZMod p) ≠ 2 := by
    rw [ZMod.ringChar_zmod_n]
    omega
  obtain ⟨x, hx⟩ := FiniteField.exists_nonsquare hchar
  have hx0 : x ≠ 0 := by
    rintro rfl
    exact hx ⟨0, (mul_zero 0).symm⟩
  have hx1 : x ≠ 1 := by
    rintro rfl
    exact hx ⟨1, (mul_one 1).symm⟩
  have hv0 : x.val ≠ 0 := fun h => hx0 ((ZMod.val_eq_zero x).mp h)
  have hv1 : x.val ≠ 1 := by
    intro h
    apply hx1
    have := ZMod.natCast_rightInverse x
    rw [h] at this
    rw [← this]
    exact Nat.cast_one
  have hvlt : x.val < p := ZMod.val_lt x
  have hv2 : 2 ≤ x.val := by omega
  refine ⟨x.val - 2, by omega, ?_⟩
  have e : 2 + (x.val - 2) = x.val := by omega
  rw [e, legendre_eq p hp h2]
  rw [legendreSym.eq_neg_one_iff]
  have hcast : (((x.val : ℕ) : ℤ) : ZMod p) = x := by
    have := ZMod.natCast_rightInverse x
    push_cast
    exact this
  rw [hcast]
  exact hx

lemma find_nonresidue_spec (p : ℕ) (hp : p.Prime) (h2 : p % 2 = 1) :
    legendre_symbol ((find_nonresidue p : ℕ) : ℤ) p = -1 :=
  find_aux_spec p p 2 (exists_nonresidue p hp h2)

/-- The brute-force inverse search succeeds: for prime `q` and `a` not
divisible by `q`, `mod_inverse a q` is a genuine inverse. -/
lemma mod_inverse_spec (a q : ℕ) (hq : q.Prime) (hnd : ¬q ∣ a) :
    a * mod_inverse a q % q = 1 := by
  haveI : Fact q.Prime := ⟨hq⟩
  have ha0 : (a : ZMod q) ≠ 0 := by
    rw [Ne, ZMod.natCast_zmod_eq_zero_iff_dvd]
    exact hnd
  have hex : ∃ x ∈ List.range q, (a * x % q == 1) = true := by
    refine ⟨((a : ZMod q)⁻¹).val, List.mem_range.mpr (ZMod.val_lt _), ?_⟩
    rw [beq_iff_eq]
    have hcast : ((a * ((a : ZMod q)⁻¹).val : ℕ) : ZMod q) = 1 := by
      push_cast
      rw [ZMod.natCast_rightInverse ((a : ZMod q)⁻¹)]
      exact mul_inv_cancel₀ ha0
    have := (ZMod.natCast_eq_natCast_iff' (a * ((a : ZMod q)⁻¹).val) 1 q).mp
      (by rw [hcast]; exact Nat.cast_one.symm)
    rwa [Nat.mod_eq_of_lt hq.one_lt] at this
  obtain ⟨x, hx⟩ := Option.isSome_iff_exists.mp (List.find?_isSome.mpr hex)
  have hpred := List.find?_some hx
  rw [beq_iff_eq] at hpred
  unfold mod_inverse
  rw [hx]
  exact hpred

/-- The CRT-combined `z` of `generate_keys` is congruent to the chosen
non-residues modulo the respective primes. -/
lemma generate_keys_crt (p q : ℕ) (hp : p.Prime) (hq : q.Prime) (hne : p ≠ q) :
    (generate_keys_from p q).1.2 % p = find_nonresidue p % p ∧
      (generate_keys_from p q).1.2 % q = find_nonresidue q % q := by
  have hq0 : q ≠ 0 := hq.ne_zero
  constructor
  · show (find_nonresidue p +
      Int.toNat (((find_nonresidue q : ℤ) - (find_nonresidue p : ℤ)) % (q : ℤ))
        * mod_inverse p q % q * p) % p = find_nonresidue p % p
    exact Nat.add_mul_mod_self_right _ _ _
  · have hnd : ¬q ∣ p := fun h => hne ((Nat.prime_dvd_prime_iff_eq hq hp).mp h).symm
    have hinv := mod_inverse_spec p q hq hnd
    rw [← ZMod.natCast_eq_natCast_iff']
    show ((find_nonresidue p +
      Int.toNat (((find_nonresidue q : ℤ) - (find_nonresidue p : ℤ)) % (q : ℤ))
        * mod_inverse p q % q * p : ℕ) : ZMod q) = (find_nonresidue q : ZMod q)
    have hd0 : (0 : ℤ) ≤ ((find_nonresidue q : ℤ) - (find_nonresidue p : ℤ)) % (q : ℤ) :=
      Int.emod_nonneg _ (by exact_mod_cast hq0)
    have hdn : ((Int.toNat (((find_nonresidue q : ℤ) - (find_nonresidue p : ℤ)) % (q : ℤ)) : ℕ)
        : ZMod q) = ((find_nonresidue q : ZMod q) - (find_nonresidue p : ZMod q)) := by
      have e1 : ((Int.toNat (((find_nonresidue q : ℤ) - (find_nonresidue p : ℤ)) % (q : ℤ)) : ℕ)
          : ℤ) = ((find_nonresidue q : ℤ) - (find_nonresidue p : ℤ)) % (q : ℤ) :=
        Int.toNat_of_nonneg hd0
      calc ((Int.toNat (((find_nonresidue q : ℤ) - (find_nonresidue p : ℤ)) % (q : ℤ)) : ℕ)
          : ZMod q)
          = (((Int.toNat (((find_nonresidue q : ℤ) - (find_nonresidue p : ℤ)) % (q : ℤ)) : ℕ)
            : ℤ) : ZMod q) := by push_cast; ring
        _ = ((((find_nonresidue q : ℤ) - (find_nonresidue p : ℤ)) % (q : ℤ)) : ZMod q) := by
            rw [e1]
        _ = ((find_nonresidue q : ZMod q) - (find_nonresidue p : ZMod q)) := by
            rw [ZMod.intCast_mod]
            push_cast
            ring
    have hpinv : ((p : ZMod q)) * (mod_inverse p q : ZMod q) = 1 := by
      have : ((p * mod_inverse p q % q : ℕ) : ZMod q) = ((1 : ℕ) : ZMod q) := by rw [hinv]
      rw [ZMod.natCast_mod] at this
      push_cast at this
      exact this
    push_cast
    rw [ZMod.natCast_mod]
    push_cast
    rw [hdn]
    calc (find_nonresidue p : ZMod q) +
        ((find_nonresidue q : ZMod q) - (find_nonresidue p : ZMod q))
          * (mod_inverse p q : ZMod q) * (p : ZMod q)
        = (find_nonresidue p : ZMod q) +
          ((find_nonresidue q : ZMod q) - (find_nonresidue p : ZMod q))
            * ((p : ZMod q) * (mod_inverse p q : ZMod q)) := by ring
      _ = (find_nonresidue q : ZMod q) := by rw [hpinv]; ring

/-- The key pair assembled by `generate_keys` from two distinct primes
`≡ 3 mod 4` is valid: `z` is a non-residue modulo both primes. -/
lemma generate_keys_valid (p q : ℕ) (hp : p.Prime) (hq : q.Prime) (hp4 : p % 4 = 3)
    (hq4 : q % 4 = 3) (hne : p ≠ q) : ValidKey p q (generate_keys_from p q).1.2 := by
  have hp2 := odd_of_mod4 hp4
  have hq2 := odd_of_mod4 hq4
  obtain ⟨hcrtp, hcrtq⟩ := generate_keys_crt p q hp hq hne
  refine ⟨hp, hq, hp4, hq4, hne, ?_, ?_⟩
  · rw [lsym_mod p hp hp2, legN_congr p hp hcrtp, ← legendre_eq p hp hp2]
    exact find_nonresidue_spec p hp hp2
  · rw [lsym_mod q hq hq2, legN_congr q hq hcrtq, ← legendre_eq q hq hq2]
    exact find_nonresidue_spec q hq hq2

/-- The Jacobi symbol of the generated `z` over `n = p * q` is `+1`. -/
lemma generate_keys_jacobi (p q : ℕ) (hp : p.Prime) (hq : q.Prime) (hp4 : p % 4 = 3)
    (hq4 : q % 4 = 3) (hne : p ≠ q) :
    jacobi_symbol ((generate_keys_from p q).1.2 : ℤ) ((p * q : ℕ) : ℤ) = some 1 := by
  have hp2 := odd_of_mod4 hp4
  have hq2 := odd_of_mod4 hq4
  have hK := generate_keys_valid p q hp hq hp4 hq4 hne
  haveI : Fact p.Prime := ⟨hp⟩
  haveI : Fact q.Prime := ⟨hq⟩
  haveI : NeZero p := ⟨hp.ne_zero⟩
  haveI : NeZero q := ⟨hq.ne_zero⟩
  have hodd : (p * q) % 2 = 1 := by
    rcases Nat.odd_mul.mpr ⟨Nat.odd_iff.mpr hp2, Nat.odd_iff.mpr hq2⟩ with ⟨k, hk⟩
    omega
  rw [jacobi_correct _ (p * q) (Nat.mul_pos hp.pos hq.pos) hodd]
  congr 1
  rw [jacobiSym.mul_right]
  have e1 : jacobiSym ((generate_keys_from p q).1.2 : ℤ) p = -1 := by
    rw [← jacobiSym.legendreSym.to_jacobiSym, ← lsym_mod p hp hp2]
    exact hK.zp
  have e2 : jacobiSym ((generate_keys_from p q).1.2 : ℤ) q = -1 := by
    rw [← jacobiSym.legendreSym.to_jacobiSym, ← lsym_mod q hq hq2]
    exact hK.zq
  rw [e1, e2]
  norm_num

/-! ### Bit-level helper facts (all checked by exhaustive evaluation) -/

lemma bitOf_le (x i : ℕ) : bitOf x i ≤ 1 := by
  unfold bitOf
  omega

lemma bits_or_le : ∀ x : ℕ, x ≤ 1 → ∀ y : ℕ, y ≤ 1 → x ||| y ≤ 1 := by decide

lemma bits_and_le : ∀ x : ℕ, x ≤ 1 → ∀ y : ℕ, y ≤ 1 → x &&& y ≤ 1 := by decide

lemma bits_xor_le : ∀ x : ℕ, x ≤ 1 → ∀ y : ℕ, y ≤ 1 → x ^^^ y ≤ 1 := by decide

lemma xor_or_id : ∀ t : ℕ, t ≤ 1 → ∀ b : ℕ, b ≤ 1 →
    ((t ^^^ 1) ||| b) ^^^ (1 ^^^ b) = t ||| b := by decide

lemma xor_and_id : ∀ t : ℕ, t ≤ 1 → ∀ b : ℕ, b ≤ 1 →
    ((t ^^^ 1) &&& b) ^^^ b = t &&& b := by decide

lemma bit_step_eq : ∀ t : ℕ, t ≤ 1 → ∀ x : ℕ, x ≤ 1 → ∀ y : ℕ, y ≤ 1 →
    (if x = 1 then t &&& y else t ||| y)
      = if x < y then 1 else if y < x then 0 else t := by decide

lemma tSpec_le (aN bN : ℕ) : ∀ i, tSpec aN bN i ≤ 1 := by
  intro i
  induction i with
  | zero =>
    simp only [tSpec]
    split
    · omega
    · exact bitOf_le bN 0
  | succ i IH =>
    simp only [tSpec]
    split
    · exact bits_and_le _ IH _ (bitOf_le bN (i + 1))
    · exact bits_or_le _ IH _ (bitOf_le bN (i + 1))

lemma to16bits_getD (x i : ℕ) (h : i < 16) : (to16bits x).getD i 0 = bitOf x i := by
  unfold to16bits bitOf
  rw [List.getD_eq_getElem?_getD, List.getElem?_map, List.getElem?_range h]
  rfl

/-! ### The protocol's round invariant -/

/-- A's reconstruction produces a well-formed encryption of the correct
round-`i` indicator bit: if `a_i = 1`, `t_{i-1} AND b_i`, else
`t_{i-1} OR b_i`, where B's plaintexts were computed from the unmasked
`s = t_{i-1} XOR r_{i-1}`. -/
lemma round_Eti_enc {p q z : ℕ} (hK : ValidKey p q z) {n : ℕ} (hn : n = p * q)
    (rnd : ProtocolRand) (i : ℕ) (hone : Nat.gcd (rnd.blindOne i) n = 1)
    {t rp b E_u0 E_u1 E_bi : ℕ} (ht : t ≤ 1) (hrp : rp ≤ 1) (hb : b ≤ 1)
    (hu0 : EncBit p q E_u0 ((t ^^^ rp) ||| b))
    (hu1 : EncBit p q E_u1 ((t ^^^ rp) &&& b))
    (hbi : EncBit p q E_bi b)
    {abit : ℕ} (habit : abit ≤ 1) :
    EncBit p q (round_Eti n z rnd i abit rp E_u0 E_u1 E_bi)
      (if abit = 1 then t &&& b else t ||| b) := by
  simp only [round_Eti]
  have hone1 : EncBit p q (encrypt_constant 1 (rnd.blindOne i) n z) 1 :=
    encrypt_constant_enc hK hn (by norm_num) hone
  interval_cases rp
  · rw [Nat.xor_zero] at hu0 hu1
    interval_cases abit
    · rw [if_pos rfl, if_pos rfl, if_neg (by norm_num)]
      exact hu0
    · rw [if_neg (by norm_num), if_pos rfl, if_pos rfl]
      exact hu1
  · interval_cases abit
    · rw [if_pos rfl, if_neg (by norm_num), if_neg (by norm_num)]
      have h1 := c_mul_enc hK hn hone1 hbi (by norm_num) hb
      have h2 := c_mul_enc hK hn hu0 h1
        (bits_or_le _ (bits_xor_le _ ht _ (by norm_num)) _ hb)
        (bits_xor_le _ (by norm_num) _ hb)
      rwa [xor_or_id t ht b hb] at h2
    · rw [if_neg (by norm_num), if_neg (by norm_num), if_pos rfl]
      have h2 := c_mul_enc hK hn hu1 hbi
        (bits_and_le _ (bits_xor_le _ ht _ (by norm_num)) _ hb) hb
      rwa [xor_and_id t ht b hb] at h2

/-- Core of the round argument: in round `i` (`1 ≤ i ≤ 15`), starting from the
invariant after round `i - 1`, the ciphertext A reconstructs encrypts
`tSpec aN bN i`. -/
lemma round_core {p q z n aN bN : ℕ} (hK : ValidKey p q z) (hn : n = p * q)
    (rnd : ProtocolRand) (hrnd : ValidRand n rnd) (i : ℕ) (hi1 : 1 ≤ i) (hi16 : i < 16)
    (st : PState) (hinv : ProtInv p q aN bN rnd (i - 1) st) :
    EncBit p q
      (round_Eti n z rnd i ((to16bits aN).getD i 0) st.r_prev
        (encrypt_constant (decrypt_bit st.M p q ||| (to16bits bN).getD i 0)
          (rnd.blindU0 i) n z)
        (encrypt_constant (decrypt_bit st.M p q &&& (to16bits bN).getD i 0)
          (rnd.blindU1 i) n z)
        (encrypt_constant ((to16bits bN).getD i 0) (rnd.blindB i) n z))
      (tSpec aN bN i) := by
  obtain ⟨j, rfl⟩ : ∃ j, i = j + 1 := ⟨i - 1, by omega⟩
  obtain ⟨hrp, hM⟩ := hinv
  have htj : tSpec aN bN j ≤ 1 := tSpec_le aN bN j
  have hmj : rnd.maskBit j ≤ 1 := hrnd.mask j
  have hs : decrypt_bit st.M p q = tSpec aN bN j ^^^ rnd.maskBit j :=
    decrypt_bit_enc hM (bits_xor_le _ htj _ hmj)
  have hbi : (to16bits bN).getD (j + 1) 0 = bitOf bN (j + 1) := to16bits_getD bN (j + 1) hi16
  have hai : (to16bits aN).getD (j + 1) 0 = bitOf aN (j + 1) := to16bits_getD aN (j + 1) hi16
  have hble : bitOf bN (j + 1) ≤ 1 := bitOf_le bN (j + 1)
  have hale : bitOf aN (j + 1) ≤ 1 := bitOf_le aN (j + 1)
  rw [hs, hbi, hai, hrp]
  have h0 := round_Eti_enc hK hn rnd (j + 1) (hrnd.bone (j + 1)).2.2 htj hmj hble
    (encrypt_constant_enc hK hn
      (bits_or_le _ (bits_xor_le _ htj _ hmj) _ hble) (hrnd.bu0 (j + 1)).2.2)
    (encrypt_constant_enc hK hn
      (bits_and_le _ (bits_xor_le _ htj _ hmj) _ hble) (hrnd.bu1 (j + 1)).2.2)
    (encrypt_constant_enc hK hn hble (hrnd.bb (j + 1)).2.2)
    hale
  have e : (if bitOf aN (j + 1) = 1 then tSpec aN bN j &&& bitOf bN (j + 1)
      else tSpec aN bN j ||| bitOf bN (j + 1)) = tSpec aN bN (j + 1) := rfl
  rwa [e] at h0

/-- Rounds `1..14` preserve the invariant. -/
lemma round_step_inv {p q z n aN bN : ℕ} (hK : ValidKey p q z) (hn : n = p * q)
    (rnd : ProtocolRand) (hrnd : ValidRand n rnd) (i : ℕ) (hi1 : 1 ≤ i) (hi14 : i ≤ 14)
    (st : PState) (hinv : ProtInv p q aN bN rnd (i - 1) st) :
    ProtInv p q aN bN rnd i
      (round_step p q n z (to16bits aN) (to16bits bN) rnd i st) := by
  have hcore := round_core hK hn rnd hrnd i hi1 (by omega) st hinv
  simp only [round_step]
  rw [if_pos (show i < 15 by omega)]
  exact ⟨rfl, c_mul_enc hK hn hcore
    (encrypt_constant_enc hK hn (hrnd.mask i) (hrnd.bm i).2.2)
    (tSpec_le aN bN i) (hrnd.mask i)⟩

/-- Round 15 stores a well-formed encryption of the final indicator bit. -/
lemma round_step_final {p q z n aN bN : ℕ} (hK : ValidKey p q z) (hn : n = p * q)
    (rnd : ProtocolRand) (hrnd : ValidRand n rnd) (st : PState)
    (hinv : ProtInv p q aN bN rnd 14 st) :
    EncBit p q (round_step p q n z (to16bits aN) (to16bits bN) rnd 15 st).final
      (tSpec aN bN 15) := by
  have hcore := round_core hK hn rnd hrnd 15 (by omega) (by omega) st hinv
  simp only [round_step]
  rw [if_neg (by omega)]
  exact hcore

lemma run_rounds_succ (p q n z : ℕ) (ab bb : List ℕ) (rnd : ProtocolRand) :
    ∀ c i : ℕ, ∀ st : PState,
      run_rounds p q n z ab bb rnd (c + 1) i st
        = round_step p q n z ab bb rnd (i + c)
            (run_rounds p q n z ab bb rnd c i st) := by
  intro c
  induction c with
  | zero => intro i st; rfl
  | succ c IH =>
    intro i st
    show run_rounds p q n z ab bb rnd (c + 1) (i + 1)
        (round_step p q n z ab bb rnd i st)
      = round_step p q n z ab bb rnd (i + (c + 1))
          (run_rounds p q n z ab bb rnd (c + 1) i st)
    rw [IH (i + 1) (round_step p q n z ab bb rnd i st)]
    have e : i + 1 + c = i + (c + 1) := by omega
    rw [e]
    rfl

lemma run_rounds_inv {p q z n aN bN : ℕ} (hK : ValidKey p q z) (hn : n = p * q)
    (rnd : ProtocolRand) (hrnd : ValidRand n rnd) :
    ∀ c i : ℕ, ∀ st : PState, 1 ≤ i → i + c ≤ 15 →
      ProtInv p q aN bN rnd (i - 1) st →
      ProtInv p q aN bN rnd (i + c - 1)
        (run_rounds p q n z (to16bits aN) (to16bits bN) rnd c i st) := by
  intro c
  induction c with
  | zero => intro i st h1 h2 h3; exact h3
  | succ c IH =>
    intro i st h1 h2 h3
    have h4 := round_step_inv hK hn rnd hrnd i h1 (by omega) st h3
    have h5 := IH (i + 1) (round_step p q n z (to16bits aN) (to16bits bN) rnd i st)
      (by omega) (by omega) h4
    rw [show i + (c + 1) - 1 = i + 1 + c - 1 by omega]
    exact h5

lemma round_step_len (p q n z : ℕ) (ab bb : List ℕ) (rnd : ProtocolRand)
    (i : ℕ) (st : PState) :
    (round_step p q n z ab bb rnd i st).A.length = st.A.length + 1 ∧
      (round_step p q n z ab bb rnd i st).B.length = st.B.length + 1 := by
  simp only [round_step]
  constructor <;> split <;> simp

lemma run_rounds_len (p q n z : ℕ) (ab bb : List ℕ) (rnd : ProtocolRand) :
    ∀ c i : ℕ, ∀ st : PState,
      (run_rounds p q n z ab bb rnd c i st).A.length = st.A.length + c ∧
        (run_rounds p q n z ab bb rnd c i st).B.length = st.B.length + c := by
  intro c
  induction c with
  | zero => intro i st; exact ⟨rfl, rfl⟩
  | succ c IH =>
    intro i st
    have h1 := round_step_len p q n z ab bb rnd i st
    have h2 := IH (i + 1) (round_step p q n z ab bb rnd i st)
    simp only [run_rounds]
    omega

/-! ### The indicator recurrence computes the comparison -/

/-- After round `i` the indicator equals the comparison of the low `i + 1`
bits. -/
lemma tSpec_low_bits (aN bN : ℕ) :
    ∀ i, tSpec aN bN i = if aN % 2 ^ (i + 1) < bN % 2 ^ (i + 1) then 1 else 0 := by
  intro i
  induction i with
  | zero =>
    simp only [tSpec, bitOf, pow_zero, pow_one, Nat.div_one]
    have ha := Nat.mod_two_eq_zero_or_one aN
    have hb := Nat.mod_two_eq_zero_or_one bN
    rcases ha with h | h <;> rcases hb with h' | h' <;> simp [h, h']
  | succ i IH =>
    simp only [tSpec]
    rw [IH, bit_step_eq (if aN % 2 ^ (i + 1) < bN % 2 ^ (i + 1) then 1 else 0)
      (by split <;> omega) (bitOf aN (i + 1)) (bitOf_le aN (i + 1))
      (bitOf bN (i + 1)) (bitOf_le bN (i + 1))]
    simp only [bitOf]
    rw [@Nat.mod_pow_succ aN 2 (i + 1), @Nat.mod_pow_succ bN 2 (i + 1)]
    have hA : aN % 2 ^ (i + 1) < 2 ^ (i + 1) := Nat.mod_lt _ (Nat.pos_pow_of_pos _ (by norm_num))
    have hB : bN % 2 ^ (i + 1) < 2 ^ (i + 1) := Nat.mod_lt _ (Nat.pos_pow_of_pos _ (by norm_num))
    have hx : aN / 2 ^ (i + 1) % 2 = 0 ∨ aN / 2 ^ (i + 1) % 2 = 1 := by omega
    have hy : bN / 2 ^ (i + 1) % 2 = 0 ∨ bN / 2 ^ (i + 1) % 2 = 1 := by omega
    rcases hx with h | h <;> rcases hy with h' | h' <;> simp only [h, h'] <;>
      simp only [Nat.mul_zero, Nat.mul_one, Nat.add_zero] <;> split_ifs <;> omega

/-- The round-15 indicator decides `aN < bN` for 16-bit operands. -/
lemma tSpec_correct (aN bN : ℕ) (ha : aN < 2 ^ 16) (hb : bN < 2 ^ 16) :
    tSpec aN bN 15 = if aN < bN then 1 else 0 := by
  rw [tSpec_low_bits aN bN 15, Nat.mod_eq_of_lt ha, Nat.mod_eq_of_lt hb]

/-! ### Assembling a full protocol run -/

/-- The masked ciphertext sent in message 2 satisfies the round-0
invariant. -/
lemma setup_inv {p q z : ℕ} (hK : ValidKey p q z) {n : ℕ} (hn : n = p * q)
    (rnd : ProtocolRand) (hrnd : ValidRand n rnd) (aN bN : ℕ) :
    EncBit p q
      (c_mul (if (to16bits aN).getD 0 0 = 1 then encrypt_constant 0 rnd.blindT0 n z
          else encrypt_constant ((to16bits bN).getD 0 0) rnd.blindB0 n z)
        (encrypt_constant (rnd.maskBit 0) (rnd.blindMask 0) n z) n)
      (tSpec aN bN 0 ^^^ rnd.maskBit 0) := by
  have hE_t0 : EncBit p q
      (if (to16bits aN).getD 0 0 = 1 then encrypt_constant 0 rnd.blindT0 n z
        else encrypt_constant ((to16bits bN).getD 0 0) rnd.blindB0 n z)
      (tSpec aN bN 0) := by
    rw [to16bits_getD aN 0 (by norm_num), to16bits_getD bN 0 (by norm_num),
      show tSpec aN bN 0 = if bitOf aN 0 = 1 then 0 else bitOf bN 0 from rfl]
    split
    · exact encrypt_constant_enc hK hn (by norm_num) hrnd.t0.2.2
    · exact encrypt_constant_enc hK hn (bitOf_le bN 0) hrnd.b0.2.2
  exact c_mul_enc hK hn hE_t0
    (encrypt_constant_enc hK hn (hrnd.mask 0) (hrnd.bm 0).2.2)
    (tSpec_le aN bN 0) (hrnd.mask 0)

/-- Decrypting the final ciphertext of the fifteen rounds yields the round-15
indicator, for any start state satisfying the round-0 invariant. -/
lemma protocol_rounds_result {p q z n aN bN : ℕ} (hK : ValidKey p q z) (hn : n = p * q)
    (rnd : ProtocolRand) (hrnd : ValidRand n rnd) (st0 : PState)
    (h0 : ProtInv p q aN bN rnd 0 st0) :
    decrypt_bit (run_rounds p q n z (to16bits aN) (to16bits bN) rnd 15 1 st0).final p q
      = tSpec aN bN 15 := by
  have hInv := run_rounds_inv hK hn rnd hrnd 14 1 st0 (by norm_num) (by norm_num) h0
  have hsucc := run_rounds_succ p q n z (to16bits aN) (to16bits bN) rnd 14 1 st0
  rw [show (15 : ℕ) = 14 + 1 from rfl, hsucc]
  exact decrypt_bit_enc (round_step_final hK hn rnd hrnd _ (by exact hInv))
    (tSpec_le aN bN (14 + 1))

/-- A full valid run of the protocol returns the comparison bit together with
two message logs of sixteen entries each. -/
lemma run_protocol_result (a b : ℤ) (p q : ℕ) (rnd : ProtocolRand)
    (ha0 : 0 ≤ a) (ha1 : a < 2 ^ 16) (hb0 : 0 ≤ b) (hb1 : b < 2 ^ 16)
    (hp : p.Prime) (hq : q.Prime) (hp4 : p % 4 = 3) (hq4 : q % 4 = 3) (hne : p ≠ q)
    (hrnd : ValidRand (p * q) rnd) :
    ∃ A B, run_protocol a b p q rnd = some (if a < b then 1 else 0, A, B)
      ∧ A.length = 16 ∧ B.length = 16 := by
  have hK : ValidKey p q (generate_keys_from p q).1.2 :=
    generate_keys_valid p q hp hq hp4 hq4 hne
  have hrnd' : ValidRand ((generate_keys_from p q).1.1) rnd := hrnd
  simp only [run_protocol]
  rw [if_neg (by omega), if_neg (by omega)]
  rw [protocol_rounds_result hK
    (show (generate_keys_from p q).1.1 = p * q from rfl) rnd hrnd' _
    ⟨rfl, setup_inv hK (show (generate_keys_from p q).1.1 = p * q from rfl) rnd hrnd'
      a.toNat b.toNat⟩]
  rw [tSpec_correct a.toNat b.toNat (by omega) (by omega)]
  rw [show (if a.toNat < b.toNat then (1 : ℕ) else 0) = (if a < b then 1 else 0) by
    by_cases h : a < b
    · rw [if_pos h, if_pos (by omega)]
    · rw [if_neg h, if_neg (by omega)]]
  refine ⟨_, _, rfl, ?_, ?_⟩
  · rw [(run_rounds_len p q _ _ _ _ rnd 15 1 _).1]
    rfl
  · rw [(run_rounds_len p q _ _ _ _ rnd 15 1 _).2]
    rfl

/-! ### Helpers for concrete instantiations -/

lemma constRand_valid (n : ℕ) (h2 : 2 ≤ n) : ValidRand n constRand := by
  have h1 : (1 : ℕ) ≤ n - 1 := by omega
  exact ⟨⟨le_refl 1, h1, Nat.gcd_one_left n⟩,
    ⟨le_refl 1, h1, Nat.gcd_one_left n⟩,
    fun i => Nat.zero_le 1,
    fun i => ⟨le_refl 1, h1, Nat.gcd_one_left n⟩,
    fun i => ⟨le_refl 1, h1, Nat.gcd_one_left n⟩,
    fun i => ⟨le_refl 1, h1, Nat.gcd_one_left n⟩,
    fun i => ⟨le_refl 1, h1, Nat.gcd_one_left n⟩,
    fun i => ⟨le_refl 1, h1, Nat.gcd_one_left n⟩⟩

/-- Every Miller-Rabin witness in the legal range `[2, n-2] = [2, 5]` accepts
`7` (with `7 - 1 = 3 · 2^1`). -/
lemma mr_round_7 : ∀ a < 6, 2 ≤ a → mr_round 7 3 1 a = true := by decide

lemma is_prime_7 (ws : List ℕ) (h : ∀ a ∈ ws, 2 ≤ a ∧ a ≤ 5) : is_prime 7 ws = true := by
  have e : is_prime 7 ws = ws.all (fun a => mr_round 7 3 1 a) := rfl
  rw [e, List.all_eq_true]
  intro a ha
  obtain ⟨h2, h5⟩ := h a ha
  exact mr_round_7 a (by omega) h2

/-- One generator iteration on the sample `5` with requested bit length `8`:
`5 |= 1` gives `5`; `5 ≡ 1 (mod 4)` so the offset `2` is added giving `7`;
`7` has bit length `3 ≤ 8`, so it is not rejected, and Miller-Rabin accepts
it. -/
lemma prime_candidate_8_5 (ws : List ℕ) (h : ∀ a ∈ ws, 2 ≤ a ∧ a ≤ 5) :
    prime_candidate 8 5 ws = some 7 := by
  have e : prime_candidate 8 5 ws = if is_prime 7 ws then some 7 else none := rfl
  rw [e, is_prime_7 ws h]
  rfl

lemma generate_prime_8_5 (ws : List ℕ) (h : ∀ a ∈ ws, 2 ≤ a ∧ a ≤ 5) :
    generate_large_prime_3mod4 8 (fun _ => 5) (fun _ => ws) 1 = some 7 := by
  have e := prime_candidate_8_5 ws h
  simp only [generate_large_prime_3mod4, e]

/-! ### The claims -/

/-- C1: for all 16-bit operands `a`, `b`, every valid key pair generated
inside the run (two distinct primes `≡ 3 mod 4`, as the generator supplies),
and every valid assignment of the run's random draws, `run_protocol a b`
succeeds and its result bit `t` satisfies `t = 1` iff `a < b` (so `a = b`
yields `t = 0`). -/
theorem C1_run_protocol_correct (a b : ℤ) (p q : ℕ) (rnd : ProtocolRand)
    (ha0 : 0 ≤ a) (ha1 : a < 2 ^ 16) (hb0 : 0 ≤ b) (hb1 : b < 2 ^ 16)
    (hp : p.Prime) (hq : q.Prime) (hp4 : p % 4 = 3) (hq4 : q % 4 = 3) (hne : p ≠ q)
    (hrnd : ValidRand (p * q) rnd) :
    ∃ t A B, run_protocol a b p q rnd = some (t, A, B) ∧ (t = 1 ↔ a < b) := by
  obtain ⟨A, B, h, -, -⟩ :=
    run_protocol_result a b p q rnd ha0 ha1 hb0 hb1 hp hq hp4 hq4 hne hrnd
  refine ⟨_, A, B, h, ?_⟩
  by_cases hab : a < b
  · simp [hab]
  · simp [hab]

theorem C1_witness :
    ∃ t A B, run_protocol 1 2 3 7 constRand = some (t, A, B) ∧ (t = 1 ↔ (1 : ℤ) < 2) :=
  C1_run_protocol_correct 1 2 3 7 constRand (by norm_num) (by norm_num) (by norm_num)
    (by norm_num) (by norm_num) (by norm_num) (by norm_num) (by norm_num) (by norm_num)
    (constRand_valid (3 * 7) (by norm_num))

/-- C2: every key pair assembled by `generate_keys` from two distinct primes
`≡ 3 mod 4` satisfies all invariants: `n = p·q`; the private key is `(p, q)`;
`p ≡ 3 mod 4`; `q ≡ 3 mod 4`; `p ≠ q`; `Legendre(z mod p, p) = -1`;
`Legendre(z mod q, q) = -1`; `Jacobi(z, n) = +1`. -/
theorem C2_generate_keys_invariants (p q : ℕ) (hp : p.Prime) (hq : q.Prime)
    (hp4 : p % 4 = 3) (hq4 : q % 4 = 3) (hne : p ≠ q) :
    (generate_keys_from p q).1.1 = p * q ∧
      (generate_keys_from p q).2 = (p, q) ∧
      p % 4 = 3 ∧ q % 4 = 3 ∧ p ≠ q ∧
      legendre_symbol (((generate_keys_from p q).1.2 % p : ℕ) : ℤ) p = -1 ∧
      legendre_symbol (((generate_keys_from p q).1.2 % q : ℕ) : ℤ) q = -1 ∧
      jacobi_symbol ((generate_keys_from p q).1.2 : ℤ)
        (((generate_keys_from p q).1.1 : ℕ) : ℤ) = some 1 := by
  have hK := generate_keys_valid p q hp hq hp4 hq4 hne
  exact ⟨rfl, rfl, hp4, hq4, hne, hK.zp, hK.zq,
    generate_keys_jacobi p q hp hq hp4 hq4 hne⟩

theorem C2_witness :
    legendre_symbol (((generate_keys_from 3 7).1.2 % 3 : ℕ) : ℤ) 3 = -1 ∧
      legendre_symbol (((generate_keys_from 3 7).1.2 % 7 : ℕ) : ℤ) 7 = -1 ∧
      jacobi_symbol ((generate_keys_from 3 7).1.2 : ℤ)
        (((generate_keys_from 3 7).1.1 : ℕ) : ℤ) = some 1 := by
  have h := C2_generate_keys_invariants 3 7 (by norm_num) (by norm_num) (by norm_num)
    (by norm_num) (by norm_num)
  exact ⟨h.2.2.2.2.2.1, h.2.2.2.2.2.2.1, h.2.2.2.2.2.2.2⟩

/-- C3: for every pair of bits, every valid key pair, and every pair of
blinding factors the encryption could draw, decrypting the product of the two
ciphertexts yields the XOR of the bits. -/
theorem C3_homomorphic_xor (p q z n x y r1 r2 : ℕ) (hK : ValidKey p q z)
    (hn : n = p * q) (hx : x ≤ 1) (hy : y ≤ 1)
    (hr1a : 1 ≤ r1) (hr1b : r1 ≤ n - 1) (hr1 : Nat.gcd r1 n = 1)
    (hr2a : 1 ≤ r2) (hr2b : r2 ≤ n - 1) (hr2 : Nat.gcd r2 n = 1) :
    decrypt_bit (c_mul (encrypt_bit x r1 n z) (encrypt_bit y r2 n z) n) p q = x ^^^ y := by
  have e : ∀ c r : ℕ, encrypt_bit c r n z = encrypt_constant c r n z := fun _ _ => rfl
  rw [e, e]
  exact decrypt_bit_enc
    (c_mul_enc hK hn (encrypt_constant_enc hK hn hx hr1)
      (encrypt_constant_enc hK hn hy hr2) hx hy)
    (bits_xor_le _ hx _ hy)

theorem C3_witness :
    decrypt_bit (c_mul (encrypt_bit 1 2 21 17) (encrypt_bit 1 5 21 17) 21) 3 7 = 1 ^^^ 1 :=
  C3_homomorphic_xor 3 7 17 21 1 1 2 5
    ⟨by norm_num, by norm_num, rfl, rfl, by norm_num, by decide, by decide⟩
    rfl (by norm_num) (by norm_num) (by norm_num) (by norm_num) (by decide)
    (by norm_num) (by norm_num) (by decide)

/-- C4: for every bit, every valid key pair, and every blinding factor the
encryption could draw (`1 ≤ r ≤ n-1`, `gcd(r, n) = 1`), decryption inverts
encryption. -/
theorem C4_roundtrip (p q z n b r : ℕ) (hK : ValidKey p q z) (hn : n = p * q)
    (hb : b ≤ 1) (hr1 : 1 ≤ r) (hr2 : r ≤ n - 1) (hgcd : Nat.gcd r n = 1) :
    decrypt_bit (encrypt_bit b r n z) p q = b := by
  have e : encrypt_bit b r n z = encrypt_constant b r n z := rfl
  rw [e]
  exact decrypt_bit_enc (encrypt_constant_enc hK hn hb hgcd) hb

theorem C4_witness : decrypt_bit (encrypt_bit 1 5 21 17) 3 7 = 1 :=
  C4_roundtrip 3 7 17 21 1 5
    ⟨by norm_num, by norm_num, rfl, rfl, by norm_num, by decide, by decide⟩
    rfl (by norm_num) (by norm_num) (by norm_num) (by decide)

/-- C5 (code bug): with requested bit length `8` and random sample
`getrandbits(8) = 5` (a possible draw, since the generator never forces the
top bit), the generator returns `7` for every possible list of Miller-Rabin
witnesses from the legal range `[2, 5]`: the value is `≡ 3 mod 4` and passes
the primality test, but its bit length is `3`, not the requested `8`. -/
theorem C5_bit_length_bug (ws : List ℕ) (h : ∀ a ∈ ws, 2 ≤ a ∧ a ≤ 5) :
    generate_large_prime_3mod4 8 (fun _ => 5) (fun _ => ws) 1 = some 7 ∧
      7 % 4 = 3 ∧ is_prime 7 ws = true ∧ bit_length 7 = 3 ∧ (3 : ℕ) ≠ 8 :=
  ⟨generate_prime_8_5 ws h, rfl, is_prime_7 ws h, rfl, by norm_num⟩

theorem C5_witness :
    generate_large_prime_3mod4 8 (fun _ => 5) (fun _ => [2, 3, 4, 5, 2]) 1 = some 7 ∧
      7 % 4 = 3 ∧ is_prime 7 [2, 3, 4, 5, 2] = true ∧ bit_length 7 = 3 ∧ (3 : ℕ) ≠ 8 :=
  C5_bit_length_bug [2, 3, 4, 5, 2] (by decide)

/-- C6 (amended): a successful 16-bit run produces exactly `W = 16` messages
in each holder's log (the source's own summary: 32 messages in total), not
`W + 1 = 17`: B sends the setup message and one message in each of rounds
`1..15`; A sends the setup mask and one message per round likewise. -/
theorem C6_message_counts (a b : ℤ) (p q : ℕ) (rnd : ProtocolRand)
    (ha0 : 0 ≤ a) (ha1 : a < 2 ^ 16) (hb0 : 0 ≤ b) (hb1 : b < 2 ^ 16) :
    ∃ t A B, run_protocol a b p q rnd = some (t, A, B)
      ∧ A.length = 16 ∧ B.length = 16 := by
  simp only [run_protocol]
  rw [if_neg (by omega), if_neg (by omega)]
  refine ⟨_, _, _, rfl, ?_, ?_⟩
  · rw [(run_rounds_len p q _ _ _ _ rnd 15 1 _).1]
    rfl
  · rw [(run_rounds_len p q _ _ _ _ rnd 15 1 _).2]
    rfl

theorem C6_counterexample :
    (run_protocol 0 0 3 7 constRand).map (fun r => (r.2.1.length, r.2.2.length))
        = some (16, 16) ∧ ((16, 16) : ℕ × ℕ) ≠ (17, 17) :=
  ⟨rfl, by decide⟩

theorem C6_witness :
    ∃ t A B, run_protocol 0 1 3 7 constRand = some (t, A, B)
      ∧ A.length = 16 ∧ B.length = 16 :=
  C6_message_counts 0 1 3 7 constRand (by norm_num) (by norm_num) (by norm_num) (by norm_num)

/-- C7: `jacobi_symbol` returns the mathematical Jacobi symbol for every
integer `a` and positive odd `n`, and `legendre_symbol` returns the
mathematical Legendre symbol (0 exactly on multiples of `p`, else `±1` via
Euler's criterion) for every integer `a` and odd prime `p`. -/
theorem C7_symbols_correct :
    (∀ (a : ℤ) (n : ℕ), 0 < n → n % 2 = 1 →
        jacobi_symbol a (n : ℤ) = some (jacobiSym a n)) ∧
      ∀ (a : ℤ) (p : ℕ) (hp : p.Prime), p % 2 = 1 →
        legendre_symbol a p = @legendreSym p ⟨hp⟩ a :=
  ⟨fun a n h1 h2 => jacobi_correct a n h1 h2, fun a p hp h2 => legendre_eq p hp h2 a⟩

theorem C7_witness :
    jacobi_symbol 1001 ((9907 : ℕ) : ℤ) = some (jacobiSym 1001 9907) ∧
      legendre_symbol 2 7 = @legendreSym 7 ⟨by norm_num⟩ 2 :=
  ⟨C7_symbols_correct.1 1001 9907 (by norm_num) (by norm_num),
    C7_symbols_correct.2 2 7 (by norm_num) (by norm_num)⟩

/-- C8: a negative or too-large operand (the type `ℤ` subsumes Python's
`isinstance(a, int)` check) makes `run_protocol` raise the input error
(modelled `none`): the validation is the first statement of the function, so
no key pair is generated and no message is produced. -/
theorem C8_rejects (a b : ℤ) (p q : ℕ) (rnd : ProtocolRand)
    (h : a < 0 ∨ 2 ^ 16 ≤ a ∨ b < 0 ∨ 2 ^ 16 ≤ b) :
    run_protocol a b p q rnd = none := by
  simp only [run_protocol]
  by_cases h1 : a < 0 ∨ 2 ^ 16 ≤ a
  · rw [if_pos h1]
  · rw [if_neg h1, if_pos (by omega)]

theorem C8_witness : run_protocol (-1) 0 3 7 constRand = none :=
  C8_rejects (-1) 0 3 7 constRand (by norm_num)

/-- C9: `jacobi_symbol` raises an input error (modelled `none`) iff the
modulus is non-positive or even; on every positive odd modulus it terminates
normally (the embedding is total, with fuel proved sufficient) with a value
in `{-1, 0, 1}`. -/
theorem C9_jacobi_errors :
    (∀ a n : ℤ, jacobi_symbol a n = none ↔ n ≤ 0 ∨ n % 2 = 0) ∧
      ∀ (a : ℤ) (n : ℕ), 0 < n → n % 2 = 1 →
        ∃ v, jacobi_symbol a (n : ℤ) = some v ∧ (v = -1 ∨ v = 0 ∨ v = 1) := by
  constructor
  · intro a n
    unfold jacobi_symbol
    split <;> simp_all
  · intro a n h1 h2
    refine ⟨jacobiSym a n, jacobi_correct a n h1 h2, ?_⟩
    rcases jacobiSym.trichotomy a n with h | h | h
    · exact Or.inr (Or.inl h)
    · exact Or.inr (Or.inr h)
    · exact Or.inl h

theorem C9_witness :
    (jacobi_symbol 5 (-4 : ℤ) = none ↔ (-4 : ℤ) ≤ 0 ∨ (-4 : ℤ) % 2 = 0) ∧
      ∃ v, jacobi_symbol 5 ((21 : ℕ) : ℤ) = some v ∧ (v = -1 ∨ v = 0 ∨ v = 1) :=
  ⟨C9_jacobi_errors.1 5 (-4), C9_jacobi_errors.2 5 21 (by norm_num) (by norm_num)⟩

/-- C10: decrypting the empty ciphertext list as an integer returns `0`
without error, for every private key. -/
theorem C10_decrypt_empty (p q : ℕ) : decrypt [] p q = 0 := rfl
